import Mathlib

/-!
Verification of the ingestion/retrieval/crawler core of the
Knowledge_Domain_Enh web service.  Python source files are shallowly
embedded as Lean functions over `List Char` (Python `str`), `Nat`/`Int`
(Python `int`) and `ℚ` (Python `float` arithmetic, exact), with fallible
calls returning `Option`/`Except` and the Chroma/Confluence collaborators
passed in as explicit function parameters.
-/

set_option autoImplicit false

namespace KDE

/-! ### Python string primitives used by `rag_service.py` -/

/-- Whitespace characters recognised by Python's default `str.strip()` /
`str.split()` on ASCII input. -/
def isPySpace (c : Char) : Bool :=
  c = ' ' || c = '\t' || c = '\n' || c = '\r' || c = '\x0b' || c = '\x0c'

/-- Remove trailing whitespace (Python `str.rstrip()`). -/
def stripRev (l : List Char) : List Char :=
  ((l.reverse).dropWhile isPySpace).reverse

/-- Python `str.strip()`: remove leading and trailing whitespace. -/
def pyStrip (l : List Char) : List Char :=
  (stripRev l).dropWhile isPySpace

/-- Helper for `pyWords`: accumulates the current word (reversed) while
scanning. -/
def wordsAux : List Char → List Char → List (List Char)
  | [], acc => if acc = [] then [] else [acc.reverse]
  | c :: rest, acc =>
    if isPySpace c then
      if acc = [] then wordsAux rest [] else acc.reverse :: wordsAux rest []
    else
      wordsAux rest (c :: acc)

/-- Python `str.split()` with no argument: split on whitespace runs,
dropping empty pieces. -/
def pyWords (s : List Char) : List (List Char) :=
  wordsAux s []

/-- Sentence delimiters of the regex `[.!?]+` in
`SimpleTextSplitter.split_text`. -/
def isSentenceDelim (c : Char) : Bool :=
  c = '.' || c = '!' || c = '?'

/-- Helper for `reSplitSentences`; the flag records whether we are inside a
delimiter run (so consecutive delimiters are collapsed, as `re.split` with
a `+` quantifier does). -/
def reSplitAux : List Char → List Char → List (List Char)
  | [], acc => [acc.reverse]
  | c :: rest, acc =>
    if isSentenceDelim c then acc.reverse :: reSplitSkip rest
    else reSplitAux rest (c :: acc)
where
  reSplitSkip : List Char → List (List Char)
  | [] => [[]]
  | c :: rest => if isSentenceDelim c then reSplitSkip rest else reSplitAux rest [c]

/-- Python `re.split(r'[.!?]+', text)`: pieces between maximal runs of
sentence delimiters (possibly empty at the borders). -/
def reSplitSentences (text : List Char) : List (List Char) :=
  reSplitAux text []

/-! ### `SimpleTextSplitter.split_text` (rag_service.py lines 28-72) -/

/-- The stripped, non-empty sentences the splitter loop actually iterates
over (`sentence = sentence.strip(); if not sentence: continue`). -/
def sentencesOf (text : List Char) : List (List Char) :=
  ((reSplitSentences text).map pyStrip).filter (fun s => s ≠ [])

/-- Inner word-packing loop body of `split_text` (the branch taken when a
single sentence exceeds `chunk_size`).  State: completed chunks and the
running `temp_chunk`. -/
def wordStep (chunkSize : Nat) (st : List (List Char) × List Char) (w : List Char) :
    List (List Char) × List Char :=
  let chunks := st.1
  let temp := st.2
  if temp.length + w.length ≤ chunkSize then
    (chunks, temp ++ w ++ [' '])
  else
    let chunks := if temp ≠ [] then chunks ++ [pyStrip temp] else chunks
    (chunks, w ++ [' '])

/-- Per-sentence loop body of `split_text`.  State: completed chunks and
the running `current_chunk`. -/
def sentenceStep (chunkSize : Nat) (st : List (List Char) × List Char) (s : List Char) :
    List (List Char) × List Char :=
  let chunks := st.1
  let current := st.2
  if current.length + s.length ≤ chunkSize then
    (chunks, current ++ s ++ ['.', ' '])
  else
    let chunks := if current ≠ [] then chunks ++ [pyStrip current] else chunks
    if s.length ≤ chunkSize then
      (chunks, s ++ ['.', ' '])
    else
      (pyWords s).foldl (wordStep chunkSize) (chunks, [])

/-- `SimpleTextSplitter.split_text`: sentence-greedy chunking with a
word-level fallback for oversized sentences. -/
def split_text (chunkSize : Nat) (text : List Char) : List (List Char) :=
  if text = [] then []
  else
    let st := (sentencesOf text).foldl (sentenceStep chunkSize) ([], [])
    if st.2 ≠ [] then st.1 ++ [pyStrip st.2] else st.1

/-! ### Chunk-size invariants of `split_text` -/

/-- A string with no Python whitespace in it (a single "word"). -/
def NoWs (l : List Char) : Prop := ∀ c ∈ l, isPySpace c = false

/-- A chunk acceptable to the (amended) chunk-bound property: at most one
character over `chunkSize`, or a single whitespace-free word. -/
def GoodChunk (n : Nat) (c : List Char) : Prop := c.length ≤ n + 1 ∨ NoWs c

/-- Invariant of the `temp_chunk` buffer inside the word-packing loop. -/
def TempInv (n : Nat) (temp : List Char) : Prop :=
  temp = [] ∨ ∃ m, temp = m ++ [' '] ∧ (m.length ≤ n ∨ NoWs m)

/-- Invariant of the `current_chunk` buffer of the sentence loop. -/
def CurInv (n : Nat) (cur : List Char) : Prop :=
  cur = [] ∨ ∃ m, cur = m ++ [' '] ∧ (m.length ≤ n + 1 ∨ NoWs m)

theorem length_dropWhile_le' (p : Char → Bool) (l : List Char) :
    (l.dropWhile p).length ≤ l.length := by
  induction l with
  | nil => simp
  | cons c rest ih =>
    by_cases h : p c
    · simp [List.dropWhile_cons, h]
      omega
    · simp [List.dropWhile_cons, h]

theorem pyStrip_length_le (l : List Char) : (pyStrip l).length ≤ l.length := by
  unfold pyStrip stripRev
  calc ((l.reverse.dropWhile isPySpace).reverse.dropWhile isPySpace).length
      ≤ (l.reverse.dropWhile isPySpace).reverse.length := length_dropWhile_le' _ _
    _ = (l.reverse.dropWhile isPySpace).length := List.length_reverse _
    _ ≤ l.reverse.length := length_dropWhile_le' _ _
    _ = l.length := List.length_reverse _

theorem stripRev_append_space (m : List Char) : stripRev (m ++ [' ']) = stripRev m := by
  unfold stripRev
  simp [List.dropWhile_cons, isPySpace]

theorem pyStrip_append_space (m : List Char) : pyStrip (m ++ [' ']) = pyStrip m := by
  unfold pyStrip
  rw [stripRev_append_space]

theorem dropWhile_eq_self_of (p : Char → Bool) (l : List Char)
    (h : ∀ c ∈ l, p c = false) : l.dropWhile p = l := by
  cases l with
  | nil => simp
  | cons c rest => simp [List.dropWhile_cons, h c (by simp)]

theorem pyStrip_of_noWs (l : List Char) (h : NoWs l) : pyStrip l = l := by
  unfold pyStrip stripRev
  rw [show List.dropWhile isPySpace l.reverse = l.reverse from
      dropWhile_eq_self_of _ _ (fun c hc => h c (List.mem_reverse.mp hc)),
    List.reverse_reverse, dropWhile_eq_self_of _ _ h]

theorem flush_good {n : Nat} {cur : List Char} (h : CurInv n cur) :
    GoodChunk n (pyStrip cur) := by
  rcases h with h | ⟨m, rfl, hm | hm⟩
  · subst h
    left
    simp [pyStrip, stripRev]
  · left
    calc (pyStrip (m ++ [' '])).length = (pyStrip m).length := by rw [pyStrip_append_space]
      _ ≤ m.length := pyStrip_length_le m
      _ ≤ n + 1 := hm
  · right
    rw [pyStrip_append_space, pyStrip_of_noWs m hm]
    exact hm

theorem tempInv_curInv {n : Nat} {t : List Char} (h : TempInv n t) : CurInv n t := by
  rcases h with h | ⟨m, rfl, hm | hm⟩
  · exact Or.inl h
  · exact Or.inr ⟨m, rfl, Or.inl (by omega)⟩
  · exact Or.inr ⟨m, rfl, Or.inr hm⟩

theorem flush_good_temp {n : Nat} {t : List Char} (h : TempInv n t) :
    GoodChunk n (pyStrip t) :=
  flush_good (tempInv_curInv h)

theorem wordsAux_noWs (s : List Char) : ∀ acc, NoWs acc →
    ∀ w ∈ wordsAux s acc, NoWs w := by
  induction s with
  | nil =>
    intro acc hacc w hw
    unfold wordsAux at hw
    by_cases h : acc = [] <;> simp [h] at hw
    subst hw
    intro c hc
    exact hacc c (by simpa using hc)
  | cons c rest ih =>
    intro acc hacc w hw
    unfold wordsAux at hw
    by_cases hc : isPySpace c
    · simp only [hc, if_true] at hw
      by_cases h : acc = [] <;> simp [h] at hw
      · exact ih [] (by intro x hx; simp at hx) w hw
      · rcases hw with hw | hw
        · subst hw
          intro x hx
          exact hacc x (by simpa using hx)
        · exact ih [] (by intro x hx; simp at hx) w hw
    · simp only [hc, if_false] at hw
      refine ih (c :: acc) ?_ w hw
      intro x hx
      rcases List.mem_cons.mp hx with h | h
      · subst h
        simpa using hc
      · exact hacc x h

theorem pyWords_noWs (s : List Char) : ∀ w ∈ pyWords s, NoWs w :=
  wordsAux_noWs s [] (by intro c hc; simp at hc)

theorem wordStep_inv {n : Nat} {st : List (List Char) × List Char} {w : List Char}
    (hc : ∀ c ∈ st.1, GoodChunk n c) (ht : TempInv n st.2) (hw : NoWs w) :
    (∀ c ∈ (wordStep n st w).1, GoodChunk n c) ∧ TempInv n (wordStep n st w).2 := by
  obtain ⟨chunks, temp⟩ := st
  unfold wordStep
  dsimp only at hc ht ⊢
  by_cases hfit : temp.length + w.length ≤ n
  · simp only [hfit, if_pos]
    refine ⟨hc, Or.inr ⟨temp ++ w, by simp, ?_⟩⟩
    left
    simp
    omega
  · simp only [hfit, if_neg, if_false]
    refine ⟨?_, Or.inr ⟨w, rfl, Or.inr hw⟩⟩
    by_cases he : temp = []
    · simpa [he] using hc
    · intro c hcm
      rcases (by simpa [he] using hcm : c ∈ chunks ∨ c = pyStrip temp) with h | h
      · exact hc c h
      · subst h
        exact flush_good_temp ht

theorem foldl_wordStep_inv {n : Nat} (ws : List (List Char))
    (hw : ∀ w ∈ ws, NoWs w) :
    ∀ st : List (List Char) × List Char, (∀ c ∈ st.1, GoodChunk n c) → TempInv n st.2 →
    (∀ c ∈ (ws.foldl (wordStep n) st).1, GoodChunk n c) ∧
      TempInv n (ws.foldl (wordStep n) st).2 := by
  induction ws with
  | nil => intro st hc ht; exact ⟨hc, ht⟩
  | cons w rest ih =>
    intro st hc ht
    have hmem : NoWs w := hw w (by simp)
    have step := wordStep_inv hc ht hmem
    simpa using ih (fun x hx => hw x (by simp [hx])) (wordStep n st w) step.1 step.2

theorem sentenceStep_inv {n : Nat} {st : List (List Char) × List Char} {s : List Char}
    (hc : ∀ c ∈ st.1, GoodChunk n c) (hcur : CurInv n st.2) :
    (∀ c ∈ (sentenceStep n st s).1, GoodChunk n c) ∧ CurInv n (sentenceStep n st s).2 := by
  obtain ⟨chunks, cur⟩ := st
  unfold sentenceStep
  dsimp only at hc hcur ⊢
  by_cases hfit : cur.length + s.length ≤ n
  · simp only [hfit, if_pos]
    refine ⟨hc, Or.inr ⟨cur ++ s ++ ['.'], by simp, Or.inl ?_⟩⟩
    simp
    omega
  · simp only [hfit, if_neg, if_false]
    have hflushed : ∀ c ∈ (if cur ≠ [] then chunks ++ [pyStrip cur] else chunks),
        GoodChunk n c := by
      by_cases he : cur = []
      · simpa [he] using hc
      · intro c hcm
        rcases (by simpa [he] using hcm : c ∈ chunks ∨ c = pyStrip cur) with h | h
        · exact hc c h
        · subst h
          exact flush_good hcur
    by_cases hs : s.length ≤ n
    · simp only [hs, if_pos]
      exact ⟨hflushed, Or.inr ⟨s ++ ['.'], by simp, Or.inl (by simp; omega)⟩⟩
    · simp only [hs, if_neg, if_false]
      have := foldl_wordStep_inv (n := n) (pyWords s) (pyWords_noWs s)
        (_, []) hflushed (Or.inl rfl)
      exact ⟨this.1, tempInv_curInv this.2⟩

theorem foldl_sentenceStep_inv {n : Nat} (ss : List (List Char)) :
    ∀ st : List (List Char) × List Char, (∀ c ∈ st.1, GoodChunk n c) → CurInv n st.2 →
    (∀ c ∈ (ss.foldl (sentenceStep n) st).1, GoodChunk n c) ∧
      CurInv n (ss.foldl (sentenceStep n) st).2 := by
  induction ss with
  | nil => intro st hc hcur; exact ⟨hc, hcur⟩
  | cons s rest ih =>
    intro st hc hcur
    have step := sentenceStep_inv (s := s) hc hcur
    simpa using ih (sentenceStep n st s) step.1 step.2

/-- C2, amended bound: every chunk produced by `split_text` is at most one
character over `chunkSize`, or else is a single whitespace-free word (the
word-granularity fallback with a word that alone exceeds `chunkSize`). -/
theorem split_text_good (n : Nat) (text : List Char) :
    ∀ c ∈ split_text n text, GoodChunk n c := by
  unfold split_text
  by_cases ht : text = []
  · simp [ht]
  · simp only [ht, if_neg, if_false]
    have := foldl_sentenceStep_inv (n := n) (sentencesOf text) ([], [])
      (by intro c hc; simp at hc) (Or.inl rfl)
    set st := (sentencesOf text).foldl (sentenceStep n) ([], []) with hst
    by_cases he : st.2 = []
    · simpa [he] using this.1
    · intro c hcm
      rcases (by simpa [he] using hcm : c ∈ st.1 ∨ c = pyStrip st.2) with h | h
      · exact this.1 c h
      · subst h
        exact flush_good this.2

/-- C2 (corrected): for every text and chunk size, every chunk returned by
`SimpleTextSplitter.split_text` is at most `chunk_size + 1` characters long,
except when it is a single whitespace-free word (produced by the
word-granularity fallback from a sentence that alone exceeds `chunk_size`,
with that word alone exceeding the size). -/
theorem claim_C2 (n : Nat) (text : List Char) :
    ∀ c ∈ split_text n text, c.length ≤ n + 1 ∨ (n + 1 < c.length ∧ NoWs c) := by
  intro c hc
  rcases split_text_good n text c hc with h | h
  · exact Or.inl h
  · by_cases hl : c.length ≤ n + 1
    · exact Or.inl hl
    · exact Or.inr ⟨by omega, h⟩

/-- C2, counterexample to the claim as stated: with `chunk_size = 10` and
input `"aaaa.bbbb."`, every sentence has 4 characters, yet the single
returned chunk `"aaaa. bbbb."` has 11 characters — the greedy size check
does not count the appended `". "` separator. -/
theorem claim_C2_counterexample :
    (∀ s ∈ sentencesOf "aaaa.bbbb.".toList, s.length ≤ 10) ∧
    ¬ (∀ c ∈ split_text 10 "aaaa.bbbb.".toList, c.length ≤ 10) := by
  decide

/-- C2, witness: the amended bound evaluated on the spec's own scenario
input. -/
theorem claim_C2_witness :
    "Hello world.".toList ∈ split_text 20 "Hello world. This is a test. Short.".toList ∧
    ("Hello world.".toList.length ≤ 21 ∨
      (21 < "Hello world.".toList.length ∧ NoWs "Hello world.".toList)) :=
  ⟨by decide, claim_C2 20 "Hello world. This is a test. Short.".toList
    "Hello world.".toList (by decide)⟩

/-! ### SHA-256 (the `hashlib.sha256(...).hexdigest()` call of
`SimpleEmbeddingsProvider._text_to_embedding`), over `Nat` mod `2^32` -/

/-- Truncate to a 32-bit word. -/
def w32 (n : Nat) : Nat := n % 4294967296

/-- Rotate the 32-bit word `x` right by `k` positions. -/
def rotr (x k : Nat) : Nat := (x >>> k) ||| w32 (x <<< (32 - k))

/-- UTF-8 encoding of one character (Python `str.encode()`). -/
def utf8Char (c : Char) : List Nat :=
  let v := c.toNat
  if v < 128 then [v]
  else if v < 2048 then [192 + v / 64, 128 + v % 64]
  else if v < 65536 then [224 + v / 4096, 128 + v / 64 % 64, 128 + v % 64]
  else [240 + v / 262144, 128 + v / 4096 % 64, 128 + v / 64 % 64, 128 + v % 64]

/-- UTF-8 bytes of a string. -/
def utf8Bytes (s : List Char) : List Nat := s.flatMap utf8Char

/-- Big-endian 8-byte encoding of the 64-bit message bit length. -/
def lenBytes64 (n : Nat) : List Nat :=
  [n / 72057594037927936 % 256, n / 281474976710656 % 256,
   n / 1099511627776 % 256, n / 4294967296 % 256,
   n / 16777216 % 256, n / 65536 % 256, n / 256 % 256, n % 256]

/-- SHA-256 message padding: `0x80`, zeros to 56 mod 64, then the bit
length. -/
def padMessage (msg : List Nat) : List Nat :=
  msg ++ [128] ++ List.replicate ((119 - msg.length % 64) % 64) 0
    ++ lenBytes64 (msg.length * 8)

/-- Split a byte list into 64-byte blocks. -/
def chunks64 (l : List Nat) : List (List Nat) :=
  if h : l = [] then []
  else l.take 64 :: chunks64 (l.drop 64)
termination_by l.length
decreasing_by
  simp only [List.length_drop]
  have : 0 < l.length := List.length_pos.mpr h
  omega

/-- Big-endian 32-bit words from bytes. -/
def bytesToWords : List Nat → List Nat
  | b0 :: b1 :: b2 :: b3 :: rest =>
    (b0 * 16777216 + b1 * 65536 + b2 * 256 + b3) :: bytesToWords rest
  | _ => []

/-- Message-schedule extension step, operating on the reversed schedule so
the most recent word is at the head. -/
def extendLoop : Nat → List Nat → List Nat
  | 0, rws => rws
  | n + 1, rws =>
    let w15 := rws.getD 14 0
    let w2 := rws.getD 1 0
    let s0 := (rotr w15 7) ^^^ (rotr w15 18) ^^^ (w15 >>> 3)
    let s1 := (rotr w2 17) ^^^ (rotr w2 19) ^^^ (w2 >>> 10)
    extendLoop n (w32 (rws.getD 15 0 + s0 + rws.getD 6 0 + s1) :: rws)

/-- The 64-entry message schedule of one block. -/
def schedule (block16 : List Nat) : List Nat :=
  (extendLoop 48 block16.reverse).reverse

/-- Working state of the SHA-256 compression function. -/
structure Sha256State where
  a : Nat
  b : Nat
  c : Nat
  d : Nat
  e : Nat
  f : Nat
  g : Nat
  h : Nat

/-- SHA-256 initial hash value (decimal). -/
def sha256Init : Sha256State :=
  ⟨1779033703, 3144134277, 1013904242, 2773480762,
   1359893119, 2600822924, 528734635, 1541459225⟩

/-- SHA-256 round constants (decimal). -/
def sha256K : List Nat :=
  [1116352408, 1899447441, 3049323471, 3921009573, 961987163,
   1508970993, 2453635748, 2870763221, 3624381080, 310598401,
   607225278, 1426881987, 1925078388, 2162078206, 2614888103,
   3248222580, 3835390401, 4022224774, 264347078, 604807628,
   770255983, 1249150122, 1555081692, 1996064986, 2554220882,
   2821834349, 2952996808, 3210313671, 3336571891, 3584528711,
   113926993, 338241895, 666307205, 773529912, 1294757372,
   1396182291, 1695183700, 1986661051, 2177026350, 2456956037,
   2730485921, 2820302411, 3259730800, 3345764771, 3516065817,
   3600352804, 4094571909, 275423344, 430227734, 506948616,
   659060556, 883997877, 958139571, 1322822218, 1537002063,
   1747873779, 1955562222, 2024104815, 2227730452, 2361852424,
   2428436474, 2756734187, 3204031479, 3329325298]

/-- One SHA-256 compression round, consuming one `(k, w)` pair. -/
def compressStep (st : Sha256State) (kw : Nat × Nat) : Sha256State :=
  let s1 := (rotr st.e 6) ^^^ (rotr st.e 11) ^^^ (rotr st.e 25)
  let ch := (st.e &&& st.f) ^^^ ((st.e ^^^ 4294967295) &&& st.g)
  let temp1 := w32 (st.h + s1 + ch + kw.1 + kw.2)
  let s0 := (rotr st.a 2) ^^^ (rotr st.a 13) ^^^ (rotr st.a 22)
  let maj := (st.a &&& st.b) ^^^ (st.a &&& st.c) ^^^ (st.b &&& st.c)
  let temp2 := w32 (s0 + maj)
  ⟨w32 (temp1 + temp2), st.a, st.b, st.c, w32 (st.d + temp1), st.e, st.f, st.g⟩

/-- Process one 64-byte block. -/
def compressBlock (st : Sha256State) (block : List Nat) : Sha256State :=
  let ws := schedule (bytesToWords block)
  let t := (sha256K.zip ws).foldl compressStep st
  ⟨w32 (st.a + t.a), w32 (st.b + t.b), w32 (st.c + t.c), w32 (st.d + t.d),
   w32 (st.e + t.e), w32 (st.f + t.f), w32 (st.g + t.g), w32 (st.h + t.h)⟩

/-- Big-endian bytes of a 32-bit word. -/
def wordBytes (w : Nat) : List Nat :=
  [w / 16777216 % 256, w / 65536 % 256, w / 256 % 256, w % 256]

/-- SHA-256 digest as 32 bytes. -/
def sha256Bytes (msg : List Nat) : List Nat :=
  let fin := (chunks64 (padMessage msg)).foldl compressBlock sha256Init
  ([fin.a, fin.b, fin.c, fin.d, fin.e, fin.f, fin.g, fin.h]).flatMap wordBytes

/-- Lowercase hex digit characters, by value. -/
def hexChar (d : Nat) : Char :=
  if d = 0 then '0' else if d = 1 then '1' else if d = 2 then '2'
  else if d = 3 then '3' else if d = 4 then '4' else if d = 5 then '5'
  else if d = 6 then '6' else if d = 7 then '7' else if d = 8 then '8'
  else if d = 9 then '9' else if d = 10 then 'a' else if d = 11 then 'b'
  else if d = 12 then 'c' else if d = 13 then 'd' else if d = 14 then 'e'
  else 'f'

/-- Value of one hex digit character (Python `int(c, 16)` on lowercase hex
input). -/
def hexVal (c : Char) : Nat :=
  if c = '0' then 0 else if c = '1' then 1 else if c = '2' then 2
  else if c = '3' then 3 else if c = '4' then 4 else if c = '5' then 5
  else if c = '6' then 6 else if c = '7' then 7 else if c = '8' then 8
  else if c = '9' then 9 else if c = 'a' then 10 else if c = 'b' then 11
  else if c = 'c' then 12 else if c = 'd' then 13 else if c = 'e' then 14
  else 15

/-- `hashlib.sha256(bytes).hexdigest()`. -/
def sha256hex (msg : List Nat) : List Char :=
  (sha256Bytes msg).flatMap (fun b => [hexChar (b / 16), hexChar (b % 16)])

/-! ### `SimpleEmbeddingsProvider` (rag_service.py lines 74-110) -/

/-- Fixed embedding dimension of the fallback provider. -/
def embedding_dim : Nat := 384

/-- The per-pair loop of `_text_to_embedding`: walk the hex digest two
characters at a time, turning each pair into `int(pair, 16) / 255.0 - 0.5`
(a trailing unpaired character is parsed alone, as Python slicing would
produce). -/
def pairVals : List Char → List ℚ
  | [] => []
  | [c] => [(hexVal c : ℚ) / 255 - 1 / 2]
  | c1 :: c2 :: rest =>
    ((16 * hexVal c1 + hexVal c2 : ℚ) / 255 - 1 / 2) :: pairVals rest

/-- `SimpleEmbeddingsProvider._text_to_embedding`: hash the text, map hex
pairs to rationals in `[-0.5, 0.5]`, zero-pad to the embedding dimension
and truncate. -/
def text_to_embedding (text : List Char) : List ℚ :=
  let text_hash := sha256hex (utf8Bytes text)
  let emb := pairVals (text_hash.take (embedding_dim * 2))
  (emb ++ List.replicate (embedding_dim - emb.length) 0).take embedding_dim

/-- `SimpleEmbeddingsProvider.get_embeddings`. -/
def simple_get_embeddings (texts : List (List Char)) : List (List ℚ) :=
  texts.map text_to_embedding

/-- `SimpleEmbeddingsProvider.get_query_embedding`. -/
def simple_get_query_embedding (query : List Char) : List ℚ :=
  text_to_embedding query

/-! ### Shape facts about the digest and the fallback embedding -/

theorem sha256Bytes_length (msg : List Nat) : (sha256Bytes msg).length = 32 := by
  simp [sha256Bytes, wordBytes]

theorem sha256Bytes_lt (msg : List Nat) : ∀ b ∈ sha256Bytes msg, b < 256 := by
  intro b hb
  simp only [sha256Bytes, List.mem_flatMap, List.mem_cons, List.not_mem_nil,
    or_false] at hb
  obtain ⟨w, _, hw⟩ := hb
  simp only [wordBytes, List.mem_cons, List.not_mem_nil, or_false] at hw
  rcases hw with rfl | rfl | rfl | rfl <;> omega

theorem flatMapHex_length (l : List Nat) :
    (l.flatMap (fun b => [hexChar (b / 16), hexChar (b % 16)])).length
      = 2 * l.length := by
  induction l with
  | nil => simp
  | cons b rest ih => simp [ih]; omega

theorem sha256hex_length (msg : List Nat) : (sha256hex msg).length = 64 := by
  unfold sha256hex
  rw [flatMapHex_length, sha256Bytes_length]

theorem sha256hex_chars (msg : List Nat) :
    ∀ c ∈ sha256hex msg, ∃ d, d < 16 ∧ c = hexChar d := by
  intro c hc
  simp only [sha256hex, List.mem_flatMap, List.mem_cons, List.not_mem_nil,
    or_false] at hc
  obtain ⟨b, hb, hbc⟩ := hc
  have hlt := sha256Bytes_lt msg b hb
  rcases hbc with rfl | rfl
  · exact ⟨b / 16, by omega, rfl⟩
  · exact ⟨b % 16, by omega, rfl⟩

theorem hexVal_hexChar : ∀ d, d < 16 → hexVal (hexChar d) = d := by decide

theorem hexVal_le_of_digit {c : Char} (h : ∃ d, d < 16 ∧ c = hexChar d) :
    hexVal c ≤ 15 := by
  obtain ⟨d, hd, rfl⟩ := h
  rw [hexVal_hexChar d hd]
  omega

theorem pairVal_bounds {p : Nat} (hp : p ≤ 255) :
    -(1 / 2 : ℚ) ≤ (p : ℚ) / 255 - 1 / 2 ∧ (p : ℚ) / 255 - 1 / 2 ≤ 1 / 2 := by
  have h1 : (0 : ℚ) ≤ (p : ℚ) / 255 := by positivity
  have h2 : (p : ℚ) / 255 ≤ 1 := by
    rw [div_le_one (by norm_num)]
    exact_mod_cast hp
  constructor <;> linarith

theorem pairVals_bounds (l : List Char)
    (hl : ∀ c ∈ l, ∃ d, d < 16 ∧ c = hexChar d) :
    ∀ q ∈ pairVals l, -(1 / 2 : ℚ) ≤ q ∧ q ≤ 1 / 2 := by
  induction l using pairVals.induct with
  | case1 => simp [pairVals]
  | case2 c =>
    intro q hq
    rcases (by simpa [pairVals] using hq : q = (hexVal c : ℚ) / 255 - 1 / 2) with rfl
    have := hexVal_le_of_digit (hl c (by simp))
    have hcast : ((hexVal c : Nat) : ℚ) = (hexVal c : ℚ) := by norm_cast
    have := pairVal_bounds (p := hexVal c) (by omega)
    simpa using this
  | case3 c1 c2 rest ih =>
    intro q hq
    rcases (by simpa [pairVals] using hq :
        q = (16 * hexVal c1 + hexVal c2 : ℚ) / 255 - 1 / 2 ∨ q ∈ pairVals rest)
      with rfl | hmem
    · have h1 := hexVal_le_of_digit (hl c1 (by simp))
      have h2 := hexVal_le_of_digit (hl c2 (by simp))
      have hb := pairVal_bounds (p := 16 * hexVal c1 + hexVal c2) (by omega)
      constructor
      · have := hb.1
        push_cast at this ⊢
        linarith
      · have := hb.2
        push_cast at this ⊢
        linarith
    · exact ih (fun c hc => hl c (by simp [hc])) q hmem

theorem pairVals_length (l : List Char) :
    (pairVals l).length = (l.length + 1) / 2 := by
  induction l using pairVals.induct with
  | case1 => simp [pairVals]
  | case2 c => simp [pairVals]
  | case3 c1 c2 rest ih => simp [pairVals, ih]; omega

theorem text_to_embedding_parts (text : List Char) :
    text_to_embedding text
      = pairVals (sha256hex (utf8Bytes text)) ++ List.replicate 352 0 := by
  have htake : (sha256hex (utf8Bytes text)).take (embedding_dim * 2)
      = sha256hex (utf8Bytes text) :=
    List.take_of_length_le (by rw [sha256hex_length]; norm_num [embedding_dim])
  have hlen : (pairVals (sha256hex (utf8Bytes text))).length = 32 := by
    rw [pairVals_length, sha256hex_length]
  simp only [text_to_embedding, htake, hlen]
  norm_num [embedding_dim]
  rw [hlen]

theorem text_to_embedding_length (text : List Char) :
    (text_to_embedding text).length = 384 := by
  rw [text_to_embedding_parts]
  simp only [List.length_append, List.length_replicate, pairVals_length,
    sha256hex_length]

/-- C9: the fallback embedding always has length exactly 384, every
component lies in `[-1/2, 1/2]`, the first 32 components are exactly the
values read off the 64-character SHA-256 hex digest two characters at a
time, and components 32 through 383 are always 0. -/
theorem claim_C9 (text : List Char) :
    (text_to_embedding text).length = 384 ∧
    (∀ q ∈ text_to_embedding text, -(1 / 2 : ℚ) ≤ q ∧ q ≤ 1 / 2) ∧
    (sha256hex (utf8Bytes text)).length = 64 ∧
    (text_to_embedding text).take 32 = pairVals (sha256hex (utf8Bytes text)) ∧
    (text_to_embedding text).drop 32 = List.replicate 352 (0 : ℚ) := by
  have hlen : (pairVals (sha256hex (utf8Bytes text))).length = 32 := by
    rw [pairVals_length, sha256hex_length]
  refine ⟨text_to_embedding_length text, ?_, sha256hex_length _, ?_, ?_⟩
  · intro q hq
    rw [text_to_embedding_parts] at hq
    rcases List.mem_append.mp hq with h | h
    · exact pairVals_bounds _ (sha256hex_chars _) q h
    · rcases List.eq_of_mem_replicate h with rfl
      norm_num
  · rw [text_to_embedding_parts, ← hlen, List.take_left]
  · rw [text_to_embedding_parts, ← hlen, List.drop_left]

/-- C9, witness: the bound conjunct applied to the zero component of a
concrete embedding. -/
theorem claim_C9_witness : -(1 / 2 : ℚ) ≤ (0 : ℚ) ∧ (0 : ℚ) ≤ 1 / 2 := by
  refine (claim_C9 "a".toList).2.1 0 ?_
  have h := (claim_C9 "a".toList).2.2.2.2
  exact List.mem_of_mem_drop (l := "a".toList |> text_to_embedding) (n := 32)
    (by rw [h]; exact List.mem_replicate.mpr (by norm_num))

/-- C6: with the local fallback provider, batch and query embedding agree
(`get_embeddings [x] = [get_query_embedding x]`), the vectors are a pure
function of the text, and every returned vector has the fixed length
384. -/
theorem claim_C6 (x : List Char) (texts : List (List Char)) :
    simple_get_embeddings [x] = [simple_get_query_embedding x] ∧
    simple_get_query_embedding x = text_to_embedding x ∧
    (simple_get_query_embedding x).length = 384 ∧
    (simple_get_embeddings texts).length = texts.length ∧
    ∀ v ∈ simple_get_embeddings texts, v.length = 384 := by
  refine ⟨rfl, rfl, text_to_embedding_length x, by simp [simple_get_embeddings], ?_⟩
  intro v hv
  obtain ⟨t, _, rfl⟩ := List.mem_map.mp hv
  exact text_to_embedding_length t

/-- C6, witness: fixed length of a concrete vector, obtained through the
batch path. -/
theorem claim_C6_witness : (simple_get_query_embedding "a".toList).length = 384 :=
  (claim_C6 "a".toList ["a".toList]).2.2.2.2 (simple_get_query_embedding "a".toList)
    (by simp [simple_get_embeddings, simple_get_query_embedding])

/-! ### `GigaChatEmbeddingsProvider` (rag_service.py lines 112-193)

The filesystem is modelled as a partial map from paths to contents
(`none` = file absent or unreadable), and the remote embedding API as an
`Except`-valued function (`.error` = a raised exception). -/

/-- Python `pat in s` for strings: `pat` occurs as a contiguous
substring. -/
def startsWith : List Char → List Char → Bool
  | [], _ => true
  | _ :: _, [] => false
  | p :: ps, c :: cs => p = c && startsWith ps cs

/-- Substring occurrence test (Python's `in` on strings). -/
def containsSub (pat : List Char) : List Char → Bool
  | [] => startsWith pat []
  | c :: rest => startsWith pat (c :: rest) || containsSub pat rest

/-- Placeholder content sniffed in the client certificate file. -/
def certPlaceholder : List Char := "# Certificate Placeholder".toList

/-- Placeholder content sniffed in the private key file. -/
def keyPlaceholder : List Char := "# Private Key Placeholder".toList

/-- `GigaChatEmbeddingsProvider._check_certificates`: false when either
credential file is absent/unreadable or its content contains the
recognized placeholder stub. -/
def check_certificates (readFile : String → Option (List Char))
    (certPath keyPath : String) : Bool :=
  match readFile certPath, readFile keyPath with
  | some cert, some key =>
    !(containsSub certPlaceholder cert) && !(containsSub keyPlaceholder key)
  | _, _ => false

/-- `GigaChatEmbeddingsProvider.get_embeddings`: raises when unavailable;
when available, a remote failure is swallowed into an empty list. -/
def gigachat_get_embeddings (available : Bool)
    (embedDocs : List (List Char) → Except String (List (List ℚ)))
    (texts : List (List Char)) : Except String (List (List ℚ)) :=
  if !available then
    .error "GigaChat эмбеддинги недоступны - проверьте сертификаты"
  else
    match embedDocs texts with
    | .ok e => .ok e
    | .error _ => .ok []

/-- `GigaChatEmbeddingsProvider.get_query_embedding`: raises when
unavailable; when available, a remote failure is swallowed into an empty
list. -/
def gigachat_get_query_embedding (available : Bool)
    (embedQ : List Char → Except String (List ℚ))
    (query : List Char) : Except String (List ℚ) :=
  if !available then
    .error "GigaChat эмбеддинги недоступны - проверьте сертификаты"
  else
    match embedQ query with
    | .ok e => .ok e
    | .error _ => .ok []

/-- True exactly on `Except.error`. -/
def exceptIsError {ε α : Type} : Except ε α → Bool
  | .error _ => true
  | .ok _ => false

/-- C7: if either credential file is absent or contains its recognized
placeholder stub then the availability check is false, and whenever the
availability flag is false both embedding entry points raise instead of
returning a degraded result. -/
theorem claim_C7 (readFile : String → Option (List Char)) (certPath keyPath : String)
    (embedDocs : List (List Char) → Except String (List (List ℚ)))
    (embedQ : List Char → Except String (List ℚ))
    (texts : List (List Char)) (query : List Char) :
    ((readFile certPath = none ∨ readFile keyPath = none ∨
      (∃ c, readFile certPath = some c ∧ containsSub certPlaceholder c = true) ∨
      (∃ k, readFile keyPath = some k ∧ containsSub keyPlaceholder k = true)) →
      check_certificates readFile certPath keyPath = false) ∧
    (∀ available : Bool, available = false →
      exceptIsError (gigachat_get_embeddings available embedDocs texts) = true ∧
      exceptIsError (gigachat_get_query_embedding available embedQ query) = true) := by
  constructor
  · intro h
    unfold check_certificates
    rcases h with h | h | ⟨c, hc, hsub⟩ | ⟨k, hk, hsub⟩
    · simp [h]
    · cases hcert : readFile certPath <;> simp [h]
    · cases hkey : readFile keyPath <;> simp [hc, hsub]
    · cases hcert : readFile certPath <;> simp [hk, hsub]
  · rintro available rfl
    exact ⟨rfl, rfl⟩

/-- C7, witness: a filesystem with no files at all yields an unavailable
provider whose batch call raises. -/
theorem claim_C7_witness :
    check_certificates (fun _ => none) "cert.pem" "key.pem" = false ∧
    exceptIsError (gigachat_get_embeddings false (fun _ => .ok []) []) = true := by
  have h := claim_C7 (fun _ => none) "cert.pem" "key.pem"
    (fun _ => .ok []) (fun _ => .ok []) [] []
  exact ⟨h.1 (Or.inl rfl), (h.2 false rfl).1⟩

/-! ### `RAGService` (rag_service.py lines 195-449)

The Chroma client is modelled as an association list from collection names
to chunk lists; the embedding provider is passed in as an `Except`-valued
function (`.error` = a raised exception, caught by the service's
`try/except`); `collection.add` failure is modelled by a flag, with the
store untouched when it fails. -/

/-- A stored chunk: id, text, embedding, plus per-chunk metadata fields
(`chunk_index`, `chunk_size`, `total_chunks`) over the copied document
metadata of type `μ`. -/
structure Chunk (μ : Type) where
  id : String
  text : List Char
  embedding : List ℚ
  chunk_index : Nat
  chunk_size : Nat
  total_chunks : Nat
  meta : μ
  deriving DecidableEq

/-- Association-list lookup by collection name. -/
def assocFind {α : Type} (n : String) : List (String × α) → Option α
  | [] => none
  | p :: rest => if p.1 = n then some p.2 else assocFind n rest

/-- State of `RAGService`: availability flag, presence of an embedding
provider, the configured collection name and the Chroma client. -/
structure RagState (μ : Type) where
  is_available : Bool
  provider_some : Bool
  collName : String
  client : List (String × List (Chunk μ))

/-- The service's collection handle (`none` when the named collection is
missing from the store). -/
def getCollection {μ : Type} (st : RagState μ) : Option (List (Chunk μ)) :=
  assocFind st.collName st.client

/-- `RAGService.check_availability`. -/
def check_availability {μ : Type} (st : RagState μ) : Bool :=
  st.is_available && (getCollection st).isSome && st.provider_some

/-- Chroma `client.get_or_create_collection`. -/
def get_or_create_collection {μ : Type} (client : List (String × List (Chunk μ)))
    (n : String) : List (String × List (Chunk μ)) :=
  if (assocFind n client).isSome then client else client ++ [(n, [])]

/-- Chroma `client.delete_collection`. -/
def delete_collection {μ : Type} (client : List (String × List (Chunk μ)))
    (n : String) : List (String × List (Chunk μ)) :=
  client.filter (fun p => p.1 ≠ n)

/-- Apply `f` to the contents of the named collection (models
`collection.add` on the service's handle). -/
def updateCollection {μ : Type} (client : List (String × List (Chunk μ)))
    (n : String) (f : List (Chunk μ) → List (Chunk μ)) :
    List (String × List (Chunk μ)) :=
  client.map (fun p => if p.1 = n then (p.1, f p.2) else p)

/-- `collection.count()` as seen by the service. -/
def rag_count {μ : Type} (st : RagState μ) : Nat :=
  ((getCollection st).getD []).length

/-- Result shape of `RAGService.add_document`. -/
structure AddResult where
  success : Bool
  chunks_added : Nat
  error : Option String
  deriving DecidableEq

/-- Per-chunk records built in the preparation loop of `add_document`. -/
def buildChunks {μ : Type} (genId : Nat → String) (meta : μ)
    (texts : List (List Char)) (embs : List (List ℚ)) : List (Chunk μ) :=
  ((texts.zip embs).enum).map
    (fun q => ⟨genId q.1, q.2.1, q.2.2, q.1, q.2.1.length, texts.length, meta⟩)

/-- `RAGService.add_document`: chunk, validate, embed in one batch, then a
single `collection.add`; every failure returns `success := false` with
`chunks_added := 0` and an error message, leaving the store untouched. -/
def add_document {μ : Type} (chunkSize : Nat)
    (getEmb : List (List Char) → Except String (List (List ℚ)))
    (genId : Nat → String) (addFails : Bool) (st : RagState μ)
    (content : List Char) (meta : μ) : AddResult × RagState μ :=
  if !check_availability st then
    (⟨false, 0, some "RAG сервис недоступен"⟩, st)
  else
    let chunks := split_text chunkSize content
    if chunks = [] then (⟨false, 0, some "Не удалось разбить текст на чанки"⟩, st)
    else
      let chunk_texts := chunks.filter (fun c => pyStrip c ≠ [])
      if chunk_texts = [] then (⟨false, 0, some "Нет валидных чанков"⟩, st)
      else
        match getEmb chunk_texts with
        | .error e => (⟨false, 0, some e⟩, st)
        | .ok embeddings =>
          if embeddings = [] ∨ embeddings.length ≠ chunk_texts.length then
            (⟨false, 0, some "Не удалось получить эмбеддинги"⟩, st)
          else if addFails then
            (⟨false, 0, some "ошибка добавления"⟩, st)
          else
            (⟨true, chunk_texts.length, none⟩,
             {st with client := (updateCollection st.client st.collName
               (fun coll => coll ++ buildChunks genId meta chunk_texts embeddings))})

/-- `RAGService.clear_database`: delete the collection and recreate it
under the same name inside a `try/except`.  A raise from either Chroma
call (injected through the two flags, since Chroma is an external
collaborator) is caught and reported as `false`: a raise from
`delete_collection` leaves the store as it was, while a raise from
`get_or_create_collection` occurs after the deletion already took
effect. -/
def clear_database {μ : Type} (deleteFails createFails : Bool) (st : RagState μ) :
    Bool × RagState μ :=
  if !check_availability st then (false, st)
  else if deleteFails then (false, st)
  else
    let client1 := delete_collection st.client st.collName
    if createFails then (false, {st with client := client1})
    else (true, {st with client := get_or_create_collection client1 st.collName})

/-- Squared-L2 distance between two vectors (Chroma's default metric). -/
def sqDist (a b : List ℚ) : ℚ :=
  ((a.zip b).map (fun p => (p.1 - p.2) ^ 2)).sum

/-- Insertion into a distance-sorted list. -/
def insertByDist {μ : Type} (x : Chunk μ × ℚ) :
    List (Chunk μ × ℚ) → List (Chunk μ × ℚ)
  | [] => [x]
  | y :: ys => if x.2 ≤ y.2 then x :: y :: ys else y :: insertByDist x ys

/-- Nearest-first ranking by distance. -/
def rankByDist {μ : Type} (l : List (Chunk μ × ℚ)) : List (Chunk μ × ℚ) :=
  l.foldr insertByDist []

/-- Model of Chroma `collection.query`: chunks ranked by distance to the
query embedding, truncated to `n` results. -/
def collection_query {μ : Type} (coll : List (Chunk μ)) (q : List ℚ) (n : Nat) :
    List (Chunk μ × ℚ) :=
  (rankByDist (coll.map (fun c => (c, sqDist q c.embedding)))).take n

/-- One formatted search result (`text`, full chunk metadata, and
`score = 1 - distance`). -/
structure SearchResult (μ : Type) where
  text : List Char
  metadata : Chunk μ
  score : ℚ

/-- `RAGService.search`: fail-closed retrieval with `n_results` clamped to
the collection size. -/
def search {μ : Type} (maxSearchResults : Nat)
    (getQEmb : List Char → Except String (List ℚ))
    (st : RagState μ) (query : List Char) (nResults : Option Nat) :
    List (SearchResult μ) :=
  if !check_availability st then []
  else
    let n := nResults.getD maxSearchResults
    match getQEmb query with
    | .error _ => []
    | .ok qemb =>
      if qemb = [] then []
      else
        let coll := (getCollection st).getD []
        (collection_query coll qemb (min n coll.length)).map
          (fun p => ⟨p.1.text, p.1, 1 - p.2⟩)

/-! ### Failure contract of `add_document` (C1) -/

/-- Case analysis of `add_document`: it either reports success, or it
reports the failure shape with the store untouched. -/
theorem add_document_spec {μ : Type} (chunkSize : Nat)
    (getEmb : List (List Char) → Except String (List (List ℚ)))
    (genId : Nat → String) (addFails : Bool) (st : RagState μ)
    (content : List Char) (meta : μ) :
    (add_document chunkSize getEmb genId addFails st content meta).1.success = true ∨
    ((add_document chunkSize getEmb genId addFails st content meta).1.chunks_added = 0 ∧
     ((add_document chunkSize getEmb genId addFails st content meta).1.error).isSome
       = true ∧
     (add_document chunkSize getEmb genId addFails st content meta).2 = st) := by
  simp only [add_document]
  repeat' split
  all_goals first
    | exact Or.inl rfl
    | exact Or.inr ⟨rfl, rfl, rfl⟩

/-- C1: whenever `add_document` reports failure — service unavailable, no
chunks, no valid chunks, embedding exception, embedding count mismatch, or
store-write error — the result carries `chunks_added = 0` and an error
message, and the store is left exactly as it was (no chunk of the document
is persisted, and nothing is ever raised past this boundary since the
embedding is a total function of the result type). -/
theorem claim_C1 {μ : Type} (chunkSize : Nat)
    (getEmb : List (List Char) → Except String (List (List ℚ)))
    (genId : Nat → String) (addFails : Bool) (st : RagState μ)
    (content : List Char) (meta : μ)
    (h : (add_document chunkSize getEmb genId addFails st content meta).1.success
      = false) :
    (add_document chunkSize getEmb genId addFails st content meta).1.chunks_added = 0 ∧
    ((add_document chunkSize getEmb genId addFails st content meta).1.error).isSome
      = true ∧
    (add_document chunkSize getEmb genId addFails st content meta).2 = st := by
  rcases add_document_spec chunkSize getEmb genId addFails st content meta with hs | hf
  · rw [h] at hs
    exact absurd hs (by simp)
  · exact hf

/-- C1, witness: an unavailable service refuses a document, and the store
is untouched. -/
theorem claim_C1_witness :
    (add_document 10 (fun _ => Except.ok []) (fun _ => "") false
      (⟨false, true, "kb", []⟩ : RagState Unit) "hi".toList ()).1.chunks_added = 0 ∧
    ((add_document 10 (fun _ => Except.ok []) (fun _ => "") false
      (⟨false, true, "kb", []⟩ : RagState Unit) "hi".toList ()).1.error).isSome
      = true ∧
    (add_document 10 (fun _ => Except.ok []) (fun _ => "") false
      (⟨false, true, "kb", []⟩ : RagState Unit) "hi".toList ()).2
      = (⟨false, true, "kb", []⟩ : RagState Unit) :=
  claim_C1 10 (fun _ => Except.ok []) (fun _ => "") false
    (⟨false, true, "kb", []⟩ : RagState Unit) "hi".toList () (by decide)

/-! ### Clear and search (C5, C8) -/

theorem assocFind_delete {α : Type} (n : String) (l : List (String × α)) :
    assocFind n (l.filter (fun p => p.1 ≠ n)) = none := by
  induction l with
  | nil => rfl
  | cons p rest ih =>
    by_cases hp : p.1 = n
    · simpa [List.filter_cons, hp] using ih
    · simpa [List.filter_cons, hp, assocFind] using ih

theorem assocFind_append_of_none {α : Type} (n : String) (l1 l2 : List (String × α))
    (h : assocFind n l1 = none) : assocFind n (l1 ++ l2) = assocFind n l2 := by
  induction l1 with
  | nil => rfl
  | cons p rest ih =>
    by_cases hp : p.1 = n
    · simp [assocFind, hp] at h
    · simp only [assocFind, hp, if_false, List.cons_append, if_neg] at h ⊢
      exact ih h

theorem clear_database_client {μ : Type} (st : RagState μ)
    (h : check_availability st = true) :
    clear_database false false st = (true, {st with client :=
      (delete_collection st.client st.collName) ++ [(st.collName, [])]}) := by
  unfold clear_database
  rw [h]
  simp only [Bool.not_true, if_false, Bool.false_eq_true]
  unfold get_or_create_collection
  rw [show assocFind st.collName (delete_collection st.client st.collName) = none from
    assocFind_delete st.collName st.client]
  rfl

theorem assocFind_delete_collection {μ : Type} (n : String)
    (client : List (String × List (Chunk μ))) :
    assocFind n (delete_collection client n) = none := by
  unfold delete_collection
  exact assocFind_delete n client

theorem clear_database_lookup {μ : Type} (st : RagState μ)
    (h : check_availability st = true) :
    assocFind st.collName (clear_database false false st).2.client = some [] := by
  rw [clear_database_client st h]
  show assocFind st.collName
    (delete_collection st.client st.collName ++ [(st.collName, [])]) = some []
  rw [assocFind_append_of_none st.collName _ _
    (assocFind_delete_collection st.collName st.client)]
  simp [assocFind]

theorem insertByDist_length {μ : Type} (x : Chunk μ × ℚ) (l : List (Chunk μ × ℚ)) :
    (insertByDist x l).length = l.length + 1 := by
  induction l with
  | nil => rfl
  | cons y ys ih =>
    unfold insertByDist
    by_cases hx : x.2 ≤ y.2 <;> simp [hx, ih]

theorem rankByDist_length {μ : Type} (l : List (Chunk μ × ℚ)) :
    (rankByDist l).length = l.length := by
  induction l with
  | nil => rfl
  | cons y ys ih =>
    unfold rankByDist at ih ⊢
    simp [List.foldr_cons, insertByDist_length, ih]

theorem search_avail_false {μ : Type} (maxR : Nat)
    (getQEmb : List Char → Except String (List ℚ)) (st : RagState μ)
    (query : List Char) (nRes : Option Nat)
    (h : check_availability st = false) :
    search maxR getQEmb st query nRes = [] := by
  unfold search
  rw [h]
  rfl

theorem search_length_le {μ : Type} (maxR : Nat)
    (getQEmb : List Char → Except String (List ℚ)) (st : RagState μ)
    (query : List Char) (nRes : Option Nat) :
    (search maxR getQEmb st query nRes).length
      ≤ min (nRes.getD maxR) (rag_count st) := by
  unfold search
  by_cases hav : check_availability st
  · rw [hav]
    simp only [Bool.not_true, if_false]
    cases hq : getQEmb query with
    | error e => simp
    | ok qemb =>
      by_cases hqe : qemb = []
      · simp [hqe]
      · simp only [hqe, if_false]
        simp [collection_query, rankByDist_length, rag_count]
  · rw [Bool.not_eq_true] at hav
    rw [hav]
    simp

/-- C5, counterexample to the claim as stated: on an available one-chunk
store, when `delete_collection` succeeds but `get_or_create_collection`
raises, `clear_database` returns `False` and the store is left with the
collection missing — the "never collection-missing" clause fails. -/
theorem claim_C5_counterexample :
    check_availability (⟨true, true, "knowledge_base",
      [("knowledge_base", [⟨"i", ['a'], [1], 0, 1, 1, ()⟩])]⟩ : RagState Unit)
      = true ∧
    (clear_database false true (⟨true, true, "knowledge_base",
      [("knowledge_base", [⟨"i", ['a'], [1], 0, 1, 1, ()⟩])]⟩ : RagState Unit)).1
      = false ∧
    getCollection (clear_database false true (⟨true, true, "knowledge_base",
      [("knowledge_base", [⟨"i", ['a'], [1], 0, 1, 1, ()⟩])]⟩ : RagState Unit)).2
      = none := by
  decide

/-- C5 (corrected): when neither Chroma call raises, `clear_database`
deletes and recreates the collection under the same name and returns
true; the collection then exists and is empty (`count() = 0`) and any
subsequent search returns no results.  When a call raises, the method
returns false: a failing delete leaves the store unchanged, while a
recreate failing after a successful delete leaves the collection
missing. -/
theorem claim_C5 {μ : Type} (st : RagState μ) (h : check_availability st = true) :
    (clear_database false false st).1 = true ∧
    assocFind st.collName (clear_database false false st).2.client = some [] ∧
    rag_count (clear_database false false st).2 = 0 ∧
    (∀ (maxR : Nat) (getQEmb : List Char → Except String (List ℚ))
      (query : List Char) (nRes : Option Nat),
      search maxR getQEmb (clear_database false false st).2 query nRes = []) ∧
    clear_database true false st = (false, st) ∧
    (clear_database false true st).1 = false ∧
    getCollection (clear_database false true st).2 = none := by
  have hlook := clear_database_lookup st h
  have hcnt : rag_count (clear_database false false st).2 = 0 := by
    rw [clear_database_client st h]
    unfold rag_count getCollection
    dsimp only
    rw [assocFind_append_of_none st.collName _ _
      (assocFind_delete_collection st.collName st.client)]
    simp [assocFind]
  have hdel : clear_database true false st = (false, st) := by
    unfold clear_database
    rw [h]
    rfl
  have hcreate1 : (clear_database false true st).1 = false := by
    unfold clear_database
    rw [h]
    rfl
  have hcreate2 : getCollection (clear_database false true st).2 = none := by
    unfold clear_database
    rw [h]
    show assocFind st.collName (delete_collection st.client st.collName) = none
    exact assocFind_delete_collection st.collName st.client
  refine ⟨by rw [clear_database_client st h], hlook, hcnt, ?_, hdel, hcreate1, hcreate2⟩
  intro maxR getQEmb query nRes
  have hle := search_length_le maxR getQEmb (clear_database false false st).2 query nRes
  rw [hcnt] at hle
  simp only [Nat.min_zero, Nat.le_zero, List.length_eq_zero] at hle
  exact hle

/-- C5, witness: clearing a one-chunk store with both Chroma calls
succeeding empties it. -/
theorem claim_C5_witness :
    (clear_database false false (⟨true, true, "knowledge_base",
      [("knowledge_base", [⟨"i", ['a'], [1], 0, 1, 1, ()⟩])]⟩ : RagState Unit)).1
      = true ∧
    rag_count (clear_database false false (⟨true, true, "knowledge_base",
      [("knowledge_base", [⟨"i", ['a'], [1], 0, 1, 1, ()⟩])]⟩ : RagState Unit)).2
      = 0 := by
  have h := claim_C5 (⟨true, true, "knowledge_base",
    [("knowledge_base", [⟨"i", ['a'], [1], 0, 1, 1, ()⟩])]⟩ : RagState Unit)
    (by decide)
  exact ⟨h.1, h.2.2.1⟩

/-- C8: `search` returns the empty list when the service is unavailable,
when the query embedding raises or comes back empty, or when the store is
empty; and it never returns more than `min n_results count` results. -/
theorem claim_C8 {μ : Type} (maxR : Nat)
    (getQEmb : List Char → Except String (List ℚ)) (st : RagState μ)
    (query : List Char) (nRes : Option Nat) :
    (check_availability st = false → search maxR getQEmb st query nRes = []) ∧
    (∀ e, getQEmb query = .error e → search maxR getQEmb st query nRes = []) ∧
    (getQEmb query = .ok [] → search maxR getQEmb st query nRes = []) ∧
    (rag_count st = 0 → search maxR getQEmb st query nRes = []) ∧
    (search maxR getQEmb st query nRes).length
      ≤ min (nRes.getD maxR) (rag_count st) := by
  refine ⟨search_avail_false maxR getQEmb st query nRes, ?_, ?_, ?_,
    search_length_le maxR getQEmb st query nRes⟩
  · intro e he
    unfold search
    rw [he]
    by_cases hav : check_availability st <;> simp [hav]
  · intro he
    unfold search
    rw [he]
    by_cases hav : check_availability st <;> simp [hav]
  · intro hcnt
    have hle := search_length_le maxR getQEmb st query nRes
    rw [hcnt] at hle
    simp only [Nat.min_zero, Nat.le_zero, List.length_eq_zero] at hle
    exact hle

/-- C8, witness: searching an unavailable service yields no results. -/
theorem claim_C8_witness :
    search 5 (fun _ => Except.ok [1]) (⟨false, true, "kb", []⟩ : RagState Unit)
      "q".toList none = [] :=
  (claim_C8 5 (fun _ => Except.ok [1]) (⟨false, true, "kb", []⟩ : RagState Unit)
    "q".toList none).1 (by decide)

/-! ### `ConfluenceService` page discovery (confluence_service.py)

Network responses are modelled by a `ConfluenceNet` record: `resolveUrl`
is `extract_page_id_from_url` (format-specific parsing, with the
`/display/` form needing a search-by-title API call — `none` means no ID
could be extracted), `childPages` is the per-page `child/page` listing
(non-200 responses yield no children, as the code skips them),
`spaceBatch start limit` is one page of the space listing, and
`pageContent` is `get_page_content` (`none` = failed fetch). -/

/-- Network/page oracle for the discovery engine. -/
structure ConfluenceNet where
  resolveUrl : String → Option String
  childPages : String → List String
  spaceBatch : Nat → Nat → List String
  pageContent : String → Option String

/-- Configuration fields of `ConfluenceConfig` used by discovery
(`page_urls`/`page_ids` absent or empty are both falsy in Python, so they
are modelled as possibly-empty lists; `space_key` likewise as an option). -/
structure CrawlConfig where
  page_urls : List String
  page_ids : List String
  space_key : Option String
  parse_levels : Int

/-- Python `set.add`: insert if not already a member (insertion order
kept; only membership is observable through the claims). -/
def setAdd (s : List String) (x : String) : List String :=
  if x ∈ s then s else s ++ [x]

/-- Python `set.update` with an iterable. -/
def setUnion (s : List String) (xs : List String) : List String :=
  xs.foldl setAdd s

/-- Breadth-first child traversal of `get_child_pages`: one listing call
per page per level, stopping early when a level yields no children. -/
def childLevels (childPages : String → List String) : Nat → List String → List String
  | 0, _ => []
  | n + 1, current =>
    let next := current.flatMap childPages
    if next = [] then next else next ++ childLevels childPages n next

/-- `ConfluenceService.get_child_pages`: guarded by `levels <= 0 or
levels > 5`, then level-by-level child listing. -/
def get_child_pages (childPages : String → List String) (page_id : String)
    (levels : Int) : List String :=
  if levels ≤ 0 ∨ 5 < levels then []
  else childLevels childPages levels.toNat [page_id]

/-- Pagination loop of `get_pages_from_space`; the fuel is one more than
`max_pages`, which suffices because every continuing iteration grows
`pages` by at least `limit ≥ 1` entries. -/
def spaceLoop (batch : Nat → Nat → List String) (maxPages limit : Nat) :
    Nat → Nat → List String → List String
  | 0, _, pages => pages
  | fuel + 1, start, pages =>
    if pages.length < maxPages then
      let b := batch start limit
      if b = [] then pages
      else if b.length < limit then pages ++ b
      else spaceLoop batch maxPages limit fuel (start + limit) (pages ++ b)
    else pages

/-- `ConfluenceService.get_pages_from_space`: paginated space listing,
truncated to `max_pages`. -/
def get_pages_from_space (batch : Nat → Nat → List String) (maxPages : Nat) :
    List String :=
  (spaceLoop batch maxPages (min 25 maxPages) (maxPages + 1) 0 []).take maxPages

/-- Seed-plus-children step shared by the three discovery mechanisms of
`parse_confluence_pages`. -/
def seedStep (net : ConfluenceNet) (cfg : CrawlConfig) (s : List String)
    (pid : String) : List String :=
  let s := setAdd s pid
  if 1 < cfg.parse_levels then
    setUnion s (get_child_pages net.childPages pid (cfg.parse_levels - 1))
  else s

/-- Per-URL body of discovery step 1: resolve the URL to an ID and seed
it; unresolvable URLs are skipped with a warning. -/
def urlStep (net : ConfluenceNet) (cfg : CrawlConfig) (s : List String)
    (url : String) : List String :=
  match net.resolveUrl url with
  | some pid => seedStep net cfg s pid
  | none => s

/-- The deduplicated set of page IDs discovered by
`parse_confluence_pages` (steps 1-3): direct URLs, explicit IDs, then
space enumeration, each with optional child expansion. -/
def discoverIds (net : ConfluenceNet) (cfg : CrawlConfig) (maxPages : Nat) :
    List String :=
  let s : List String := []
  let s := cfg.page_urls.foldl (urlStep net cfg) s
  let s := cfg.page_ids.foldl (seedStep net cfg) s
  match cfg.space_key with
  | some _ => (get_pages_from_space net.spaceBatch maxPages).foldl (seedStep net cfg) s
  | none => s

/-- `ConfluenceService.parse_confluence_pages` (step 4): fetch content for
the discovered IDs truncated to `max_pages`; failed fetches are skipped. -/
def parse_confluence_pages (net : ConfluenceNet) (cfg : CrawlConfig)
    (maxPages : Nat) : List String :=
  let ids := discoverIds net cfg maxPages
  if ids = [] then []
  else (ids.take maxPages).filterMap net.pageContent

/-! ### Dedup, truncation and level-guard properties (C3, C4, C10) -/

theorem setAdd_nodup {s : List String} {x : String} (h : s.Nodup) :
    (setAdd s x).Nodup := by
  unfold setAdd
  by_cases hx : x ∈ s
  · simpa [hx]
  · rw [if_neg hx]
    simpa [List.nodup_append, h] using hx

theorem mem_setAdd_self (s : List String) (x : String) : x ∈ setAdd s x := by
  unfold setAdd
  by_cases hx : x ∈ s <;> simp [hx]

theorem mem_setAdd_mono {s : List String} {y : String} (x : String) (h : y ∈ s) :
    y ∈ setAdd s x := by
  unfold setAdd
  by_cases hx : x ∈ s <;> simp [hx, h]

theorem setUnion_nodup (xs : List String) : ∀ {s : List String}, s.Nodup →
    (setUnion s xs).Nodup := by
  induction xs with
  | nil => intro s h; exact h
  | cons x rest ih => intro s h; exact ih (setAdd_nodup h)

theorem mem_setUnion_mono (xs : List String) : ∀ {s : List String} {y : String},
    y ∈ s → y ∈ setUnion s xs := by
  induction xs with
  | nil => intro s y h; exact h
  | cons x rest ih => intro s y h; exact ih (mem_setAdd_mono x h)

theorem seedStep_nodup {net : ConfluenceNet} {cfg : CrawlConfig}
    {s : List String} (pid : String) (h : s.Nodup) : (seedStep net cfg s pid).Nodup := by
  unfold seedStep
  by_cases hl : 1 < cfg.parse_levels
  · simpa [hl] using setUnion_nodup _ (setAdd_nodup h)
  · simpa [hl] using setAdd_nodup h

theorem mem_seedStep_mono {net : ConfluenceNet} {cfg : CrawlConfig}
    {s : List String} {y : String} (pid : String) (h : y ∈ s) :
    y ∈ seedStep net cfg s pid := by
  unfold seedStep
  by_cases hl : 1 < cfg.parse_levels
  · simpa [hl] using mem_setUnion_mono _ (mem_setAdd_mono pid h)
  · simpa [hl] using mem_setAdd_mono pid h

theorem mem_seedStep_self {net : ConfluenceNet} {cfg : CrawlConfig}
    (s : List String) (pid : String) : pid ∈ seedStep net cfg s pid := by
  unfold seedStep
  by_cases hl : 1 < cfg.parse_levels
  · simpa [hl] using mem_setUnion_mono _ (mem_setAdd_self s pid)
  · simpa [hl] using mem_setAdd_self s pid

theorem urlStep_nodup {net : ConfluenceNet} {cfg : CrawlConfig}
    {s : List String} (url : String) (h : s.Nodup) : (urlStep net cfg s url).Nodup := by
  unfold urlStep
  cases net.resolveUrl url with
  | some pid => exact seedStep_nodup pid h
  | none => exact h

theorem foldl_seedStep_nodup {net : ConfluenceNet} {cfg : CrawlConfig}
    (l : List String) : ∀ {s : List String}, s.Nodup →
    (l.foldl (seedStep net cfg) s).Nodup := by
  induction l with
  | nil => intro s h; exact h
  | cons x rest ih => intro s h; exact ih (seedStep_nodup x h)

theorem foldl_urlStep_nodup {net : ConfluenceNet} {cfg : CrawlConfig}
    (l : List String) : ∀ {s : List String}, s.Nodup →
    (l.foldl (urlStep net cfg) s).Nodup := by
  induction l with
  | nil => intro s h; exact h
  | cons x rest ih => intro s h; exact ih (urlStep_nodup x h)

theorem foldl_seedStep_mono {net : ConfluenceNet} {cfg : CrawlConfig}
    (l : List String) : ∀ {s : List String} {y : String}, y ∈ s →
    y ∈ l.foldl (seedStep net cfg) s := by
  induction l with
  | nil => intro s y h; exact h
  | cons x rest ih => intro s y h; exact ih (mem_seedStep_mono x h)

theorem foldl_seedStep_mem {net : ConfluenceNet} {cfg : CrawlConfig}
    (l : List String) : ∀ (s : List String) (pid : String), pid ∈ l →
    pid ∈ l.foldl (seedStep net cfg) s := by
  induction l with
  | nil => intro s pid h; simp at h
  | cons x rest ih =>
    intro s pid h
    rcases List.mem_cons.mp h with rfl | hmem
    · exact foldl_seedStep_mono rest (mem_seedStep_self s pid)
    · exact ih (seedStep net cfg s x) pid hmem

theorem discoverIds_nodup (net : ConfluenceNet) (cfg : CrawlConfig) (maxPages : Nat) :
    (discoverIds net cfg maxPages).Nodup := by
  unfold discoverIds
  cases hsk : cfg.space_key with
  | some sk =>
    exact foldl_seedStep_nodup _
      (foldl_seedStep_nodup _ (foldl_urlStep_nodup _ List.nodup_nil))
  | none =>
    exact foldl_seedStep_nodup _ (foldl_urlStep_nodup _ List.nodup_nil)

theorem discoverIds_mem_of_page_id (net : ConfluenceNet) (cfg : CrawlConfig)
    (maxPages : Nat) (pid : String) (h : pid ∈ cfg.page_ids) :
    pid ∈ discoverIds net cfg maxPages := by
  unfold discoverIds
  cases hsk : cfg.space_key with
  | some sk => exact foldl_seedStep_mono _ (foldl_seedStep_mem _ _ pid h)
  | none => exact foldl_seedStep_mem _ _ pid h

/-- C3: the discovered-ID collection of `parse_confluence_pages` behaves
as a set — it never contains a page ID twice — and a page reached both
through a resolving direct URL and through an explicit page ID appears in
it exactly once. -/
theorem claim_C3 (net : ConfluenceNet) (cfg : CrawlConfig) (maxPages : Nat) :
    (discoverIds net cfg maxPages).Nodup ∧
    (∀ q, ((discoverIds net cfg maxPages).take maxPages).count q ≤ 1) ∧
    ∀ pid url, url ∈ cfg.page_urls → net.resolveUrl url = some pid →
      pid ∈ cfg.page_ids → (discoverIds net cfg maxPages).count pid = 1 := by
  refine ⟨discoverIds_nodup net cfg maxPages, ?_, ?_⟩
  · intro q
    exact List.nodup_iff_count_le_one.mp
      (List.Nodup.sublist (List.take_sublist maxPages _)
        (discoverIds_nodup net cfg maxPages)) q
  · intro pid url _ _ hid
    exact List.count_eq_one_of_mem (discoverIds_nodup net cfg maxPages)
      (discoverIds_mem_of_page_id net cfg maxPages pid hid)

/-- C3, witness: a page supplied both as an explicit ID and via a URL
resolving to the same ID is discovered exactly once. -/
theorem claim_C3_witness :
    (discoverIds
      ⟨fun u => if u = "u1" then some "123" else none, fun _ => [], fun _ _ => [],
        fun _ => none⟩
      ⟨["u1"], ["123"], none, 1⟩ 50).count "123" = 1 :=
  (claim_C3
    ⟨fun u => if u = "u1" then some "123" else none, fun _ => [], fun _ _ => [],
      fun _ => none⟩
    ⟨["u1"], ["123"], none, 1⟩ 50).2.2 "123" "u1" (by simp) (by simp) (by simp)

/-- C4: discovery with `max_pages = N` never yields more than `N`
processed pages, even when the deduplicated discovered set is larger —
the post-dedup ID list is truncated to the cap before content fetching. -/
theorem claim_C4 (net : ConfluenceNet) (cfg : CrawlConfig) (maxPages : Nat) :
    (parse_confluence_pages net cfg maxPages).length ≤ maxPages := by
  unfold parse_confluence_pages
  by_cases hids : discoverIds net cfg maxPages = []
  · simp [hids]
  · simp only [hids, if_neg, if_false]
    calc ((discoverIds net cfg maxPages).take maxPages
            |>.filterMap net.pageContent).length
        ≤ ((discoverIds net cfg maxPages).take maxPages).length :=
          List.length_filterMap_le _ _
      _ ≤ maxPages := List.length_take_le _ _

theorem get_child_pages_guard (childPages : String → List String) (pid : String)
    (levels : Int) (h : levels ≤ 0 ∨ 5 < levels) :
    get_child_pages childPages pid levels = [] := by
  unfold get_child_pages
  rw [if_pos h]

theorem seedStep_high {net : ConfluenceNet} {cfg : CrawlConfig}
    (s : List String) (pid : String) (h : 6 < cfg.parse_levels) :
    seedStep net cfg s pid = setAdd s pid := by
  unfold seedStep
  rw [if_pos (by omega)]
  rw [get_child_pages_guard net.childPages pid (cfg.parse_levels - 1)
    (Or.inr (by omega))]
  rfl

theorem seedStep_eq_of_high {net : ConfluenceNet} {cfg : CrawlConfig}
    (s : List String) (pid : String) (h : 6 < cfg.parse_levels) :
    seedStep net cfg s pid = seedStep net {cfg with parse_levels := 1} s pid := by
  rw [seedStep_high s pid h]
  unfold seedStep
  norm_num

theorem urlStep_eq_of_high {net : ConfluenceNet} {cfg : CrawlConfig}
    (s : List String) (url : String) (h : 6 < cfg.parse_levels) :
    urlStep net cfg s url = urlStep net {cfg with parse_levels := 1} s url := by
  unfold urlStep
  cases net.resolveUrl url with
  | some pid => exact seedStep_eq_of_high s pid h
  | none => rfl

/-- C10: `get_child_pages` returns the empty list whenever `levels <= 0`
or `levels > 5`, without any traversal; consequently a configuration with
`parse_levels > 6` (which passes `parse_levels - 1 > 5`) performs no child
expansion at all — discovery behaves exactly as with `parse_levels = 1`. -/
theorem claim_C10 :
    (∀ (childPages : String → List String) (pid : String) (levels : Int),
      levels ≤ 0 ∨ 5 < levels → get_child_pages childPages pid levels = []) ∧
    (∀ (net : ConfluenceNet) (cfg : CrawlConfig) (maxPages : Nat),
      6 < cfg.parse_levels →
      discoverIds net cfg maxPages
        = discoverIds net {cfg with parse_levels := 1} maxPages) := by
  refine ⟨get_child_pages_guard, ?_⟩
  intro net cfg maxPages h
  simp only [discoverIds]
  have h1 : List.foldl (urlStep net cfg) [] cfg.page_urls
      = List.foldl (urlStep net {cfg with parse_levels := 1}) [] cfg.page_urls :=
    List.foldl_ext _ _ [] (fun a b _ => urlStep_eq_of_high a b h)
  have h2 : ∀ t : List String, List.foldl (seedStep net cfg) t cfg.page_ids
      = List.foldl (seedStep net {cfg with parse_levels := 1}) t cfg.page_ids :=
    fun t => List.foldl_ext _ _ t (fun a b _ => seedStep_eq_of_high a b h)
  have h3 : ∀ t : List String,
      List.foldl (seedStep net cfg) t (get_pages_from_space net.spaceBatch maxPages)
      = List.foldl (seedStep net {cfg with parse_levels := 1}) t
          (get_pages_from_space net.spaceBatch maxPages) :=
    fun t => List.foldl_ext _ _ t (fun a b _ => seedStep_eq_of_high a b h)
  cases hsk : cfg.space_key with
  | some sk =>
    rw [h1, h2, h3]
    simp [hsk]
  | none =>
    rw [h1, h2]
    simp [hsk]

/-- C10, witness: with `parse_levels = 7` the guard fires (`levels = 6`)
and a seeded page with children discovers only the seed. -/
theorem claim_C10_witness :
    get_child_pages (fun _ => ["c1", "c2"]) "p" 6 = [] ∧
    discoverIds ⟨fun _ => none, fun _ => ["c1", "c2"], fun _ _ => [], fun _ => none⟩
        ⟨[], ["p"], none, 7⟩ 50
      = discoverIds ⟨fun _ => none, fun _ => ["c1", "c2"], fun _ _ => [], fun _ => none⟩
        ⟨[], ["p"], none, 1⟩ 50 :=
  ⟨claim_C10.1 (fun _ => ["c1", "c2"]) "p" 6 (Or.inr (by norm_num)),
   claim_C10.2 ⟨fun _ => none, fun _ => ["c1", "c2"], fun _ _ => [], fun _ => none⟩
     ⟨[], ["p"], none, 7⟩ 50 (by norm_num)⟩

end KDE
